import Mathlib

/-!
Verification of the suffix-array indexing core of the MMT phrase-based
translation engine, shallowly embedded from
`src/decoder-phrasebased/src/native/suffixarray-phrasetable/suffixarray/SuffixArray.cpp`.

The key codec, the posting-list representation and the count serialization
live in `dbkv.h` / `PostingList.cpp`, which are not part of the provided
source; those definitions are modelled from the spec (each such definition
carries a doc comment saying so).  Everything concerning `SuffixArray.cpp`
itself (merge operator dispatch, `PutBatch`, `AddPrefixesToBatch`,
`AddTargetCountsToBatch`, `CountOccurrences`, `IndexIterator::Next`,
constructor error paths) is translated directly from that file.
-/

namespace MMT

/-- Byte strings: the values produced by the encoders are bytes 0..255. -/
abbrev Bytes := List Nat

/-- Modelled from the spec: the keyspace is a flat ordered byte-string
namespace partitioned by a leading type tag (`dbkv.h` is not part of the
provided source).  The five tags are distinct bytes. -/
def kStreamsKeyType : Nat := 0

/-- Modelled from the spec: type tag of the storage-manifest singleton key. -/
def kStorageManifestKeyType : Nat := 1

/-- Modelled from the spec: type tag of source-prefix posting-list keys. -/
def kSourcePrefixKeyType : Nat := 2

/-- Modelled from the spec: type tag of target-count keys. -/
def kTargetCountKeyType : Nat := 3

/-- Modelled from the spec: type tag of domain-deletion marker keys. -/
def kDomainDeletionKeyType : Nat := 4

/-- Modelled from the spec: an empty-body key is just its type tag. -/
def MakeEmptyKey (t : Nat) : Bytes := [t]

/-- `static const string kStreamsKey = MakeEmptyKey(kStreamsKeyType)` . -/
def kStreamsKey : Bytes := MakeEmptyKey kStreamsKeyType

/-- `static const string kStorageManifestKey = MakeEmptyKey(kStorageManifestKeyType)` . -/
def kStorageManifestKey : Bytes := MakeEmptyKey kStorageManifestKeyType

/-- Modelled from the spec: little-endian fixed-width encoding of a natural
number into a given number of bytes (used for word ids, domains, offsets and
counts; `dbkv.h` is not part of the provided source). -/
def encodeLE : Nat → Nat → Bytes
  | 0, _ => []
  | k + 1, n => n % 256 :: encodeLE k (n / 256)

/-- Little-endian byte-string decoding, inverse of `encodeLE`. -/
def decodeLE : Bytes → Nat
  | [] => 0
  | b :: rest => b + 256 * decodeLE rest

/-- Modelled from the spec: counts serialize as fixed-width signed 64-bit
integers, here two's-complement little-endian (`SerializeCount` of
`dbkv.h` is not part of the provided source). -/
def SerializeCount (c : Int) : Bytes :=
  encodeLE 8 (c % (18446744073709551616 : Int)).toNat

/-- Modelled from the spec: decode a fixed-width signed 64-bit count; a
value that is not exactly eight bytes (in particular the empty value
returned for an absent key) decodes to zero. -/
def DeserializeCount (b : Bytes) : Int :=
  if b.length = 8 then
    if decodeLE b < 9223372036854775808 then (decodeLE b : Int)
    else (decodeLE b : Int) - 18446744073709551616
  else 0

/-- Modelled from the spec: a phrase is encoded as the concatenation of its
fixed-width word-id records. -/
def EncodePhrase (p : List Nat) : Bytes := (p.map (encodeLE 4)).flatten

/-- Modelled from the spec: `SourcePrefixKey(prefixLength, domain, phrase)`
puts the phrase bytes before the domain so that a range scan over a fixed
phrase, ignoring the domain, is contiguous (`MakePrefixKey` of `dbkv.h` is
not part of the provided source). -/
def MakePrefixKey (L : Nat) (domain : Nat) (sentence : List Nat) (start len : Nat) : Bytes :=
  kSourcePrefixKeyType :: (EncodePhrase ((sentence.drop start).take len) ++ encodeLE 4 domain)

/-- Modelled from the spec: `TargetCountKey(prefixLength, phrase)` has no
domain component (`MakeCountKey` of `dbkv.h` is not part of the provided
source). -/
def MakeCountKey (L : Nat) (sentence : List Nat) (start len : Nat) : Bytes :=
  kTargetCountKeyType :: EncodePhrase ((sentence.drop start).take len)

/-- Modelled from the spec: the per-domain deletion marker key. -/
def MakeDomainDeletionKey (domain : Nat) : Bytes :=
  kDomainDeletionKeyType :: encodeLE 4 domain

/-- A posting: one occurrence (domain, corpus offset, in-sentence start) of
a source phrase. -/
structure Posting where
  domain : Nat
  location : Nat
  start : Nat
deriving DecidableEq, Repr

/-- Modelled from the spec: a posting serializes as a fixed-width record
(domain, offset, start position). -/
def encodePosting (p : Posting) : Bytes :=
  encodeLE 4 p.domain ++ encodeLE 8 p.location ++ encodeLE 2 p.start

/-- Width in bytes of one serialized posting record. -/
def postingRecordWidth : Nat := 14

/-- Modelled from the spec: a posting list serializes as the flat
concatenation of its fixed-width records (`PostingList::Serialize` is not
part of the provided source). -/
def SerializePostingList (l : List Posting) : Bytes := (l.map encodePosting).flatten

/-- Decode one fixed-width posting record. -/
def decodePostingRecord (b : Bytes) : Posting :=
  { domain := decodeLE (b.take 4)
    location := decodeLE ((b.drop 4).take 8)
    start := decodeLE (b.drop 12) }

/-- Fueled record-by-record decoder (the fuel makes the recursion
structural, so concrete values reduce definitionally). -/
def decodePostingsAux : Nat → Bytes → List Posting
  | 0, _ => []
  | fuel + 1, b =>
    if postingRecordWidth ≤ b.length then
      decodePostingRecord (b.take postingRecordWidth)
        :: decodePostingsAux fuel (b.drop postingRecordWidth)
    else []

/-- Modelled from the spec: `PostingList::Deserialize` decodes the flat
record concatenation; the record count is the byte length divided by the
record width. -/
def DeserializePostingList (b : Bytes) : List Posting := decodePostingsAux b.length b

/-- Field-wise truncation to the serialized fixed widths; serialization
followed by deserialization yields exactly these truncated postings. -/
def truncPosting (p : Posting) : Posting :=
  { domain := p.domain % 4294967296
    location := p.location % 18446744073709551616
    start := p.start % 65536 }

/-- The multiset of postings denoted by a serialized posting-list value
(consumers treat the list as an unordered multiset). -/
def PostingsDenoted (b : Bytes) : Multiset Posting := (DeserializePostingList b : Multiset Posting)

namespace MergePositionOperator

/-- `MergePositionOperator::MergePositionLists` (SuffixArray.cpp lines 46-51):
byte-string concatenation, incoming value alone when no existing value. -/
def MergePositionLists (existing_value : Option Bytes) (value : Bytes) : Bytes :=
  match existing_value with
  | some e => e ++ value
  | none => value

/-- `MergePositionOperator::MergeCounts` (SuffixArray.cpp lines 53-59):
decode the incoming count, add the decoded existing count when present,
serialize the sum. -/
def MergeCounts (existing_value : Option Bytes) (value : Bytes) : Bytes :=
  SerializeCount (DeserializeCount value +
    (match existing_value with
     | some e => DeserializeCount e
     | none => 0))

/-- `MergePositionOperator::Merge` (SuffixArray.cpp lines 32-44): dispatch
on the key's leading type tag; `none` models returning `false`
(merge not applicable). -/
def Merge (key : Bytes) (existing_value : Option Bytes) (value : Bytes) : Option Bytes :=
  if key.headD 255 = kSourcePrefixKeyType then
    some (MergePositionLists existing_value value)
  else if key.headD 255 = kTargetCountKeyType then
    some (MergeCounts existing_value value)
  else none

end MergePositionOperator

/-- The in-memory accumulator `unordered_map<string, PostingList>` of
`PutBatch`, as an association list with unique keys (insertion order is
kept so the model is deterministic; the C++ iteration order is
unspecified, and no claim depends on the order of the accumulated keys). -/
abbrev SPMap := List (Bytes × List Posting)

/-- The in-memory accumulator `unordered_map<string, int64_t>` of
`PutBatch`. -/
abbrev TCMap := List (Bytes × Int)

/-- `outBatch[dkey].Append(domain, location, start)`: append one posting to
the list stored under `k`, inserting an empty list first when the key is
absent (C++ `operator[]` semantics). -/
def updList (m : SPMap) (k : Bytes) (p : Posting) : SPMap :=
  match m with
  | [] => [(k, [p])]
  | (k2, v) :: rest => if k2 = k then (k2, v ++ [p]) :: rest else (k2, v) :: updList rest k p

/-- `outBatch[dkey]++`: increment the count stored under `k`, inserting a
zero first when the key is absent (C++ `operator[]` semantics). -/
def updCount (m : TCMap) (k : Bytes) : TCMap :=
  match m with
  | [] => [(k, 1)]
  | (k2, v) :: rest => if k2 = k then (k2, v + 1) :: rest else (k2, v) :: updCount rest k

/-- Posting list accumulated under a key (empty when absent). -/
def lookupPL : SPMap → Bytes → List Posting
  | [], _ => []
  | (k2, v) :: rest, k => if k2 = k then v else lookupPL rest k

/-- Count accumulated under a key (zero when absent). -/
def lookupTC : TCMap → Bytes → Int
  | [], _ => 0
  | (k2, v) :: rest, k => if k2 = k then v else lookupTC rest k

/-- Accumulate a list of (key, posting) occurrences, one `updList` each. -/
def applyOccs (m : SPMap) (occs : List (Bytes × Posting)) : SPMap :=
  occs.foldl (fun m2 kp => updList m2 kp.1 kp.2) m

/-- Accumulate a list of count keys, one `updCount` each. -/
def applyCountKeys (m : TCMap) (ks : List Bytes) : TCMap :=
  ks.foldl updCount m

/-- The (start, length) pairs enumerated by the two nested loops of
`AddPrefixesToBatch` / `AddTargetCountsToBatch`: every start position of a
sentence of length `n`, every prefix length 1..min(L, n - start). -/
def prefixPairs (L n : Nat) : List (Nat × Nat) :=
  (List.range n).flatMap (fun start => (List.range (min L (n - start))).map (fun i => (start, i + 1)))

/-- The (key, posting) occurrences generated from one source sentence. -/
def prefixOccurrences (L d : Nat) (s : List Nat) (loc : Nat) : List (Bytes × Posting) :=
  (prefixPairs L s.length).map
    (fun sl => (MakePrefixKey L d s sl.1 sl.2, { domain := d, location := loc, start := sl.1 }))

/-- The count keys generated from one target sentence. -/
def countKeys (L : Nat) (s : List Nat) : List Bytes :=
  (prefixPairs L s.length).map (fun sl => MakeCountKey L s sl.1 sl.2)

/-- `SuffixArray::AddPrefixesToBatch` (SuffixArray.cpp lines 214-227): the
two nested loops, translated with the inner `break` folded into the loop
bound (the inner loop body runs for length = 1 .. min(prefixLength,
size - start)). -/
def AddPrefixesToBatch (L : Nat) (domain : Nat) (sentence : List Nat) (location : Nat)
    (outBatch : SPMap) : SPMap :=
  (List.range sentence.length).foldl
    (fun m start =>
      (List.range (min L (sentence.length - start))).foldl
        (fun m2 i =>
          updList m2 (MakePrefixKey L domain sentence start (i + 1))
            { domain := domain, location := location, start := start })
        m)
    outBatch

/-- `SuffixArray::AddTargetCountsToBatch` (SuffixArray.cpp lines 229-241). -/
def AddTargetCountsToBatch (L : Nat) (sentence : List Nat) (outBatch : TCMap) : TCMap :=
  (List.range sentence.length).foldl
    (fun m start =>
      (List.range (min L (sentence.length - start))).foldl
        (fun m2 i => updCount m2 (MakeCountKey L sentence start (i + 1)))
        m)
    outBatch

/-- Modelled from the spec: the append-only corpus storage collaborator.
`Append` returns a stable offset (here the record index); `Flush` advances
the durable boundary recorded by the manifest. -/
structure StorageModel where
  records : List (Nat × List Nat × List Nat × List (Nat × Nat))
  flushedCount : Nat
deriving DecidableEq, Repr

/-- Modelled from the spec: `CorporaStorage::Append` returns a stable
offset for the appended (domain, source, target, alignment) record. -/
def storageAppend (st : StorageModel) (d : Nat) (src tgt : List Nat) (al : List (Nat × Nat)) :
    StorageModel × Nat :=
  ({ st with records := st.records ++ [(d, src, tgt, al)] }, st.records.length)

/-- Modelled from the spec: `CorporaStorage::Flush`. -/
def storageFlush (st : StorageModel) : StorageModel :=
  { st with flushedCount := st.records.length }

/-- Modelled from the spec: `GetManifest()->Serialize()`, a snapshot
descriptor of the flushed storage boundary. -/
def serializeManifest (st : StorageModel) : Bytes := encodeLE 8 st.flushedCount

/-- Modelled from the spec: the Stream State is a per-channel watermark;
`SerializeStreams` is its wholesale serialization. -/
def SerializeStreams (s : List (Nat × Nat)) : Bytes :=
  (s.map (fun p => encodeLE 4 p.1 ++ encodeLE 8 p.2)).flatten

/-- One entry of an `UpdateBatch`: domain, source sentence, target
sentence, alignment. -/
structure UpdateEntry where
  domain : Nat
  source : List Nat
  target : List Nat
  alignment : List (Nat × Nat)
deriving DecidableEq, Repr

/-- An `UpdateBatch`: entries, domains to delete, and the resulting Stream
State (`batch.GetStreams()`). -/
structure UpdateBatch where
  data : List UpdateEntry
  deletions : List Nat
  streams : List (Nat × Nat)
deriving DecidableEq, Repr

/-- One operation recorded in the atomic `rocksdb::WriteBatch`. -/
inductive WriteOp where
  | put (key value : Bytes)
  | merge (key value : Bytes)
deriving DecidableEq, Repr

/-- The mutable state of a `SuffixArray` relevant to `PutBatch`: the
in-memory `streams` field and the corpus storage handle. -/
structure SAState where
  streams : List (Nat × Nat)
  storage : StorageModel
deriving DecidableEq, Repr

/-- Result of a successful `PutBatch`: the composed atomic write batch,
the state after the commit, and the domains handed to the garbage
collector. -/
structure PutBatchOut where
  writeBatch : List WriteOp
  newState : SAState
  markedForDeletion : List Nat
deriving DecidableEq, Repr

/-- The entry loop of `PutBatch` (SuffixArray.cpp lines 170-176): append
each entry to corpus storage and accumulate its prefixes and target
counts. -/
def putBatchFold (L : Nat) : List UpdateEntry → StorageModel → SPMap → TCMap →
    StorageModel × SPMap × TCMap
  | [], stor, sp, tc => (stor, sp, tc)
  | e :: rest, stor, sp, tc =>
    let r := storageAppend stor e.domain e.source e.target e.alignment
    putBatchFold L rest r.1
      (AddPrefixesToBatch L e.domain e.source r.2 sp)
      (AddTargetCountsToBatch L e.target tc)

/-- `SuffixArray::PutBatch` (SuffixArray.cpp lines 163-212), successful
path: build the atomic write batch (posting-list merges, count merges,
domain-deletion puts, the streams put, and — unless bulk-loading — the
storage-manifest put after a flush), then replace the in-memory streams
with the batch's and mark the deletions. -/
def PutBatch (L : Nat) (openForBulkLoad : Bool) (st : SAState) (batch : UpdateBatch) :
    PutBatchOut :=
  let r := putBatchFold L batch.data st.storage [] []
  let stor2 := if openForBulkLoad then r.1 else storageFlush r.1
  let wb : List WriteOp :=
    (r.2.1.map (fun kv => WriteOp.merge kv.1 (SerializePostingList kv.2)))
    ++ (r.2.2.map (fun kv => WriteOp.merge kv.1 (SerializeCount kv.2)))
    ++ (batch.deletions.map (fun d => WriteOp.put (MakeDomainDeletionKey d) []))
    ++ [WriteOp.put kStreamsKey (SerializeStreams st.streams)]
    ++ (if openForBulkLoad then [] else [WriteOp.put kStorageManifestKey (serializeManifest stor2)])
  { writeBatch := wb
    newState := { streams := batch.streams, storage := stor2 }
    markedForDeletion := batch.deletions }

/-- The value stored by the first `Put` operation for a given key inside a
write batch (the batches built by `PutBatch` contain at most one `Put` per
key). -/
def firstPutValue : List WriteOp → Bytes → Option Bytes
  | [], _ => none
  | WriteOp.put k2 v :: rest, k => if k2 = k then some v else firstPutValue rest k
  | WriteOp.merge _ _ :: rest, k => firstPutValue rest k

/-- The `Merge` operations of a write batch, in order. -/
def mergeOpsOf (wb : List WriteOp) : List (Bytes × Bytes) :=
  wb.filterMap (fun op =>
    match op with
    | WriteOp.merge k v => some (k, v)
    | WriteOp.put _ _ => none)

/-- All (key, posting) occurrences generated by a batch's entries, with
the storage offsets the entries receive (`base` is the storage length when
the batch starts). -/
def batchSourceOccs (L : Nat) : List UpdateEntry → Nat → List (Bytes × Posting)
  | [], _ => []
  | e :: rest, base => prefixOccurrences L e.domain e.source base ++ batchSourceOccs L rest (base + 1)

/-- All target-count keys generated by a batch's entries. -/
def batchTargetKeys (L : Nat) : List UpdateEntry → List Bytes
  | [] => []
  | e :: rest => countKeys L e.target ++ batchTargetKeys L rest

/-- Point lookup in the modelled key-value store; an absent key yields the
empty byte string, exactly the state `rocksdb::DB::Get` leaves in the
caller's value string. -/
def dbGet (db : List (Bytes × Bytes)) (k : Bytes) : Bytes :=
  ((db.find? (fun kv => kv.1 == k)).map Prod.snd).getD []

/-- Does a key match the global source-phrase range scan for `phrase`?
Modelled from the spec: all `SourcePrefixKey` entries whose phrase bytes
equal the query's, across every domain (`PrefixCursor` is not part of the
provided source). -/
def sourceKeyMatchesPhrase (L : Nat) (key : Bytes) (phrase : List Nat) : Bool :=
  key.length == 1 + 4 * phrase.length + 4 &&
    key.take (1 + 4 * phrase.length) == kSourcePrefixKeyType :: EncodePhrase phrase

/-- `PrefixCursor::CountValue`, modelled from the spec: the posting-list
length of the entry under the cursor, decoded as byte length divided by
the record width. -/
def cursorCountValue (value : Bytes) : Nat := value.length / postingRecordWidth

/-- `SuffixArray::CountOccurrences` (SuffixArray.cpp lines 247-267):
phrases longer than the prefix length are approximated as singletons;
source counts sum the matching posting-list lengths over a global cursor;
target counts decode the direct lookup; the result is floored at 1. -/
def CountOccurrences (L : Nat) (db : List (Bytes × Bytes)) (isSource : Bool)
    (phrase : List Nat) : Nat :=
  if phrase.length > L then 1
  else
    (max
      (if isSource then
        ((db.filter (fun kv => sourceKeyMatchesPhrase L kv.1 phrase)).map
          (fun kv => (cursorCountValue kv.2 : Int))).sum
      else
        DeserializeCount (dbGet db (MakeCountKey L phrase 0 phrase.length)))
      1).toNat

/-- Modelled from the spec: `GetKeyTypeFromKey` reads the leading type
tag. -/
def GetKeyTypeFromKey (key : Bytes) (L : Nat) : Nat := key.headD 255

/-- Modelled from the spec: `GetDomainFromKey` recovers the domain stored
in the trailing fixed-width field of a source-prefix key. -/
def GetDomainFromKey (key : Bytes) (L : Nat) : Nat :=
  decodeLE (key.drop (key.length - 4))

/-- Fueled word decoder (chunks of one fixed-width word record). -/
def decodeWordsAux : Nat → Bytes → List Nat
  | 0, _ => []
  | fuel + 1, b =>
    if 4 ≤ b.length then decodeLE (b.take 4) :: decodeWordsAux fuel (b.drop 4) else []

/-- Decode a concatenation of fixed-width word records. -/
def decodeWords (b : Bytes) : List Nat := decodeWordsAux b.length b

/-- Modelled from the spec: `GetWordsFromKey` losslessly recovers the
phrase word sequence from a source-prefix or target-count key. -/
def GetWordsFromKey (key : Bytes) (L : Nat) : List Nat :=
  if key.headD 255 = kSourcePrefixKeyType then decodeWords ((key.drop 1).take (key.length - 5))
  else decodeWords (key.drop 1)

/-- One record of the underlying ordered scan: its key, its value, and
whether `it->status()` is still ok after advancing past it. -/
structure RawRec where
  key : Bytes
  value : Bytes
  statusOkAfterNext : Bool
deriving DecidableEq, Repr

/-- `IndexIterator::IndexEntry`. -/
structure IndexEntry where
  is_source : Bool
  domain : Nat
  words : List Nat
  positions : List Posting
  count : Int
deriving DecidableEq, Repr

/-- `IndexIterator::Next` (SuffixArray.cpp lines 292-338): classify the
record under the cursor by type tag, fill the entry, advance, surface an
index error if the scan reports a fault, loop past unrecognized tags, and
report clean exhaustion (`Except.ok none` models returning `false`). -/
def IterNext (L : Nat) : List RawRec → Except String (Option (IndexEntry × List RawRec))
  | [] => Except.ok none
  | r :: rest =>
    if GetKeyTypeFromKey r.key L = kSourcePrefixKeyType then
      if r.statusOkAfterNext then
        Except.ok (some
          ({ is_source := true
             domain := GetDomainFromKey r.key L
             words := GetWordsFromKey r.key L
             positions := DeserializePostingList r.value
             count := ((DeserializePostingList r.value).length : Int) }, rest))
      else Except.error "iterator status not ok"
    else if GetKeyTypeFromKey r.key L = kTargetCountKeyType then
      if r.statusOkAfterNext then
        Except.ok (some
          ({ is_source := false
             domain := 0
             words := GetWordsFromKey r.key L
             positions := []
             count := DeserializeCount r.value }, rest))
      else Except.error "iterator status not ok"
    else
      if r.statusOkAfterNext then IterNext L rest
      else Except.error "iterator status not ok"

/-- The error kinds a `SuffixArray` constructor can surface:
`invalid_argument`, `index_exception`, `storage_exception`. -/
inductive InitError where
  | invalidArgument
  | indexError
  | storageError
deriving DecidableEq, Repr

/-- Environment of one constructor run: whether the model path is an
existing directory, whether `DB::Open` succeeds, whether the corpus
storage opens consistently with the manifest. -/
structure InitEnv where
  modelPathIsDirectory : Bool
  dbOpenOk : Bool
  storageOpenOk : Bool
deriving DecidableEq, Repr

/-- `SuffixArray::SuffixArray` (SuffixArray.cpp lines 73-130), error
paths in source order: a model path that is not a directory throws
`invalid_argument` (line 79); a failing `DB::Open` throws
`index_exception` (line 112); a corpus storage that cannot be opened
throws `storage_exception`. -/
def SuffixArrayInit (env : InitEnv) : Except InitError Unit :=
  if !env.modelPathIsDirectory then Except.error InitError.invalidArgument
  else if !env.dbOpenOk then Except.error InitError.indexError
  else if !env.storageOpenOk then Except.error InitError.storageError
  else Except.ok ()

/-- Operations against the key-value store and the corpus storage, used to
trace what the query paths touch. -/
inductive KVOp where
  | get (key : Bytes)
  | scan (key : Bytes)
  | put (key value : Bytes)
  | merge (key value : Bytes)
  | del (key : Bytes)
  | storageAppendOp (domain : Nat) (src tgt : List Nat)
  | storageFlushOp
deriving DecidableEq, Repr

/-- Read operations: point gets and scan steps. -/
def isReadOp : KVOp → Bool
  | KVOp.get _ => true
  | KVOp.scan _ => true
  | _ => false

/-- Overwrite-or-insert into the modelled key-value store. -/
def dbPut (db : List (Bytes × Bytes)) (k v : Bytes) : List (Bytes × Bytes) :=
  db.filter (fun kv => !(kv.1 == k)) ++ [(k, v)]

/-- Apply the registered merge operator to the stored value. -/
def dbMerge (db : List (Bytes × Bytes)) (k v : Bytes) : List (Bytes × Bytes) :=
  dbPut db k
    ((MergePositionOperator.Merge k ((db.find? (fun kv => kv.1 == k)).map Prod.snd) v).getD v)

/-- Persistent state touched by the operations: the key-value store and
the corpus storage. -/
abbrev FullState := List (Bytes × Bytes) × StorageModel

/-- Effect of one operation on the persistent state. -/
def applyKVOp (st : FullState) (op : KVOp) : FullState :=
  match op with
  | KVOp.get _ => st
  | KVOp.scan _ => st
  | KVOp.put k v => (dbPut st.1 k v, st.2)
  | KVOp.merge k v => (dbMerge st.1 k v, st.2)
  | KVOp.del k => (st.1.filter (fun kv => !(kv.1 == k)), st.2)
  | KVOp.storageAppendOp d s t => (st.1, { st.2 with records := st.2.records ++ [(d, s, t, [])] })
  | KVOp.storageFlushOp => (st.1, storageFlush st.2)

/-- The store operations performed by `CountOccurrences` (SuffixArray.cpp
lines 247-267): nothing for long phrases, a cursor seek plus one scan step
per matched entry on the source side, a single point get on the target
side. -/
def CountOccurrencesTrace (L : Nat) (db : List (Bytes × Bytes)) (isSource : Bool)
    (phrase : List Nat) : List KVOp :=
  if phrase.length > L then []
  else if isSource then
    KVOp.scan (kSourcePrefixKeyType :: EncodePhrase phrase)
      :: (db.filter (fun kv => sourceKeyMatchesPhrase L kv.1 phrase)).map
          (fun kv => KVOp.scan kv.1)
  else [KVOp.get (MakeCountKey L phrase 0 phrase.length)]

/-- The store operations performed by one `IndexIterator::Next` call
(SuffixArray.cpp lines 292-338): one scan step per record visited, looping
past unrecognized tags while the status stays ok. -/
def IterNextTrace (L : Nat) : List RawRec → List KVOp
  | [] => []
  | r :: rest =>
    if GetKeyTypeFromKey r.key L = kSourcePrefixKeyType then [KVOp.scan r.key]
    else if GetKeyTypeFromKey r.key L = kTargetCountKeyType then [KVOp.scan r.key]
    else if r.statusOkAfterNext then KVOp.scan r.key :: IterNextTrace L rest
    else [KVOp.scan r.key]

/-!
### Codec lemmas
-/

theorem encodeLE_length (k : Nat) : ∀ n, (encodeLE k n).length = k := by
  induction k with
  | zero => intro n; rfl
  | succ k ih => intro n; simp [encodeLE, ih]

theorem decodeLE_encodeLE (k : Nat) : ∀ n, decodeLE (encodeLE k n) = n % 256 ^ k := by
  induction k with
  | zero => intro n; simp [encodeLE, decodeLE, Nat.mod_one]
  | succ k ih =>
    intro n
    simp only [encodeLE, decodeLE, ih]
    rw [pow_succ, mul_comm (256 ^ k) 256, Nat.mod_mul]

theorem SerializeCount_length (c : Int) : (SerializeCount c).length = 8 :=
  encodeLE_length 8 _

/-- Deserializing a serialized count recovers the count modulo 2^64, and
the result lies in the signed 64-bit range. -/
theorem DeserializeCount_SerializeCount (c : Int) :
    DeserializeCount (SerializeCount c) % 18446744073709551616 = c % 18446744073709551616
    ∧ -9223372036854775808 ≤ DeserializeCount (SerializeCount c)
    ∧ DeserializeCount (SerializeCount c) < 9223372036854775808 := by
  have hmod : (0 : Int) ≤ c % 18446744073709551616 :=
    Int.emod_nonneg c (by norm_num)
  have hlt : c % 18446744073709551616 < 18446744073709551616 :=
    Int.emod_lt_of_pos c (by norm_num)
  have hcast : (((c % 18446744073709551616).toNat : Int)) = c % 18446744073709551616 :=
    Int.toNat_of_nonneg hmod
  have hnat : (c % 18446744073709551616).toNat < 18446744073709551616 := by omega
  have hdec : decodeLE (encodeLE 8 (c % 18446744073709551616).toNat)
      = (c % 18446744073709551616).toNat := by
    rw [decodeLE_encodeLE]
    have h256 : (256 : Nat) ^ 8 = 18446744073709551616 := by norm_num
    rw [h256]
    exact Nat.mod_eq_of_lt hnat
  unfold DeserializeCount SerializeCount
  rw [if_pos (encodeLE_length 8 _), hdec]
  split <;> omega

theorem SerializeCount_congr {c₁ c₂ : Int}
    (h : c₁ % 18446744073709551616 = c₂ % 18446744073709551616) :
    SerializeCount c₁ = SerializeCount c₂ := by
  unfold SerializeCount
  rw [h]

/-- Merging two serialized counts produces the serialization of their
sum. -/
theorem MergeCounts_serialize (a b : Int) :
    MergePositionOperator.MergeCounts (some (SerializeCount a)) (SerializeCount b)
      = SerializeCount (a + b) := by
  show SerializeCount (DeserializeCount (SerializeCount b) + DeserializeCount (SerializeCount a))
    = SerializeCount (a + b)
  apply SerializeCount_congr
  have ha := (DeserializeCount_SerializeCount a).1
  have hb := (DeserializeCount_SerializeCount b).1
  omega

theorem DeserializeCount_SerializeCount_of_range {x : Int}
    (h1 : -9223372036854775808 ≤ x) (h2 : x < 9223372036854775808) :
    DeserializeCount (SerializeCount x) = x := by
  have h := DeserializeCount_SerializeCount x
  omega

/-!
### Posting-list decode lemmas
-/

theorem decodePostingsAux_congr :
    ∀ (n m : Nat) (b : Bytes), b.length ≤ n → b.length ≤ m →
      decodePostingsAux n b = decodePostingsAux m b := by
  intro n
  induction n with
  | zero =>
    intro m b h1 _
    have hb : b = [] := List.length_eq_zero.mp (Nat.le_zero.mp h1)
    subst hb
    cases m with
    | zero => rfl
    | succ m => simp [decodePostingsAux, postingRecordWidth]
  | succ n ih =>
    intro m b h1 h2
    cases m with
    | zero =>
      have hb : b = [] := List.length_eq_zero.mp (Nat.le_zero.mp h2)
      subst hb
      simp [decodePostingsAux, postingRecordWidth]
    | succ m =>
      simp only [decodePostingsAux]
      split
      · next hw =>
        have hdrop : (b.drop postingRecordWidth).length = b.length - postingRecordWidth :=
          List.length_drop _ _
        rw [ih m (b.drop postingRecordWidth)
          (by simp [postingRecordWidth] at hdrop hw ⊢; omega)
          (by simp [postingRecordWidth] at hdrop hw ⊢; omega)]
      · rfl

theorem DeserializePostingList_eq_aux {n : Nat} {b : Bytes} (h : b.length ≤ n) :
    decodePostingsAux n b = DeserializePostingList b :=
  decodePostingsAux_congr n b.length b h le_rfl

theorem encodePosting_length (p : Posting) : (encodePosting p).length = 14 := by
  simp [encodePosting, encodeLE_length]

/-- Unfold one record from a sufficiently long serialized value. -/
theorem DeserializePostingList_step {b : Bytes} (h : 14 ≤ b.length) :
    DeserializePostingList b
      = decodePostingRecord (b.take 14) :: DeserializePostingList (b.drop 14) := by
  obtain ⟨n, hn⟩ : ∃ n, b.length = n + 1 := ⟨b.length - 1, by omega⟩
  unfold DeserializePostingList
  rw [hn]
  simp only [decodePostingsAux, postingRecordWidth]
  rw [if_pos (by omega)]
  congr 1
  exact decodePostingsAux_congr n (b.drop 14).length (b.drop 14) (by simp; omega) le_rfl

theorem DeserializePostingList_nil : DeserializePostingList [] = [] := rfl

theorem DeserializePostingList_short {b : Bytes} (h : b.length < 14) :
    DeserializePostingList b = [] := by
  unfold DeserializePostingList
  cases hl : b.length with
  | zero =>
    have : b = [] := List.length_eq_zero.mp hl
    subst this; rfl
  | succ n =>
    simp only [decodePostingsAux, postingRecordWidth]
    rw [if_neg (by omega)]

theorem decodePostingRecord_encodePosting (p : Posting) :
    decodePostingRecord (encodePosting p) = truncPosting p := by
  have h4 : (encodeLE 4 p.domain).length = 4 := encodeLE_length 4 _
  have h8 : (encodeLE 8 p.location).length = 8 := encodeLE_length 8 _
  have ht4 : ((encodeLE 4 p.domain ++ (encodeLE 8 p.location ++ encodeLE 2 p.start)).take 4)
      = encodeLE 4 p.domain := List.take_left' h4
  have hd4 : ((encodeLE 4 p.domain ++ (encodeLE 8 p.location ++ encodeLE 2 p.start)).drop 4)
      = encodeLE 8 p.location ++ encodeLE 2 p.start := List.drop_left' h4
  have ht8 : ((encodeLE 8 p.location ++ encodeLE 2 p.start).take 8) = encodeLE 8 p.location :=
    List.take_left' h8
  have hd8 : ((encodeLE 8 p.location ++ encodeLE 2 p.start).drop 8) = encodeLE 2 p.start :=
    List.drop_left' h8
  have hd12 : ((encodeLE 4 p.domain ++ (encodeLE 8 p.location ++ encodeLE 2 p.start)).drop 12)
      = encodeLE 2 p.start := by
    have : (12 : Nat) = 4 + 8 := by norm_num
    rw [this, ← List.drop_drop, hd4, hd8]
  unfold decodePostingRecord encodePosting truncPosting
  rw [List.append_assoc, ht4, hd4, ht8, hd12]
  simp only [decodeLE_encodeLE]
  norm_num

/-- Serialization of posting lists is a homomorphism into byte
concatenation: decoding a serialized list followed by anything decodes the
list's (width-truncated) postings first. -/
theorem DeserializePostingList_serialize_append (l : List Posting) (rest : Bytes) :
    DeserializePostingList (SerializePostingList l ++ rest)
      = l.map truncPosting ++ DeserializePostingList rest := by
  induction l with
  | nil => simp [SerializePostingList]
  | cons p t ih =>
    have hser : SerializePostingList (p :: t) = encodePosting p ++ SerializePostingList t := by
      simp [SerializePostingList]
    rw [hser, List.append_assoc,
      DeserializePostingList_step (by rw [List.length_append, encodePosting_length]; omega),
      List.take_left' (encodePosting_length p), List.drop_left' (encodePosting_length p),
      decodePostingRecord_encodePosting, ih]
    simp

theorem DeserializePostingList_serialize (l : List Posting) :
    DeserializePostingList (SerializePostingList l) = l.map truncPosting := by
  have h := DeserializePostingList_serialize_append l []
  simpa [DeserializePostingList_nil] using h

/-!
### Accumulator-map lemmas
-/

theorem lookupPL_updList (m : SPMap) (k k2 : Bytes) (p : Posting) :
    lookupPL (updList m k2 p) k
      = if k2 = k then lookupPL m k ++ [p] else lookupPL m k := by
  induction m with
  | nil => by_cases h : k2 = k <;> simp [updList, lookupPL, h]
  | cons hd t ih =>
    obtain ⟨a, v⟩ := hd
    by_cases h1 : a = k2 <;> by_cases h2 : a = k
    · have h3 : k2 = k := h1 ▸ h2
      simp [updList, lookupPL, h1, h2, h3]
    · have h3 : ¬(k2 = k) := fun hh => h2 (h1.trans hh)
      simp [updList, lookupPL, h1, h2, h3]
    · have h3 : ¬(k2 = k) := fun hh => h1 (h2.trans hh.symm)
      simp [updList, lookupPL, h1, h2, h3, Ne.symm h3, ih]
    · simp [updList, lookupPL, h1, h2, ih]

theorem lookupTC_updCount (m : TCMap) (k k2 : Bytes) :
    lookupTC (updCount m k2) k
      = if k2 = k then lookupTC m k + 1 else lookupTC m k := by
  induction m with
  | nil => by_cases h : k2 = k <;> simp [updCount, lookupTC, h]
  | cons hd t ih =>
    obtain ⟨a, v⟩ := hd
    by_cases h1 : a = k2 <;> by_cases h2 : a = k
    · have h3 : k2 = k := h1 ▸ h2
      simp [updCount, lookupTC, h1, h2, h3]
    · have h3 : ¬(k2 = k) := fun hh => h2 (h1.trans hh)
      simp [updCount, lookupTC, h1, h2, h3]
    · have h3 : ¬(k2 = k) := fun hh => h1 (h2.trans hh.symm)
      simp [updCount, lookupTC, h1, h2, h3, Ne.symm h3, ih]
    · simp [updCount, lookupTC, h1, h2, ih]

theorem lookupPL_applyOccs (occs : List (Bytes × Posting)) :
    ∀ (m : SPMap) (k : Bytes),
      lookupPL (applyOccs m occs) k
        = lookupPL m k ++ (occs.filter (fun kp => kp.1 == k)).map Prod.snd := by
  induction occs with
  | nil => intro m k; simp [applyOccs]
  | cons kp rest ih =>
    intro m k
    have hstep : applyOccs m (kp :: rest) = applyOccs (updList m kp.1 kp.2) rest := by
      simp [applyOccs]
    rw [hstep, ih, lookupPL_updList]
    by_cases h : kp.1 = k
    · simp [h, List.filter_cons]
    · simp [h, List.filter_cons]

theorem lookupTC_applyCountKeys (ks : List Bytes) :
    ∀ (m : TCMap) (k : Bytes),
      lookupTC (applyCountKeys m ks) k = lookupTC m k + (ks.count k : Int) := by
  induction ks with
  | nil => intro m k; simp [applyCountKeys]
  | cons k0 rest ih =>
    intro m k
    have hstep : applyCountKeys m (k0 :: rest) = applyCountKeys (updCount m k0) rest := by
      simp [applyCountKeys]
    rw [hstep, ih, lookupTC_updCount]
    by_cases h : k0 = k
    · simp [h, List.count_cons]
      omega
    · have hbne : ¬(k0 == k) := by simpa using h
      simp [h, List.count_cons, hbne]

theorem map_fst_updList (m : SPMap) (k : Bytes) (p : Posting) :
    (updList m k p).map Prod.fst
      = if k ∈ m.map Prod.fst then m.map Prod.fst else m.map Prod.fst ++ [k] := by
  induction m with
  | nil => simp [updList]
  | cons hd t ih =>
    obtain ⟨a, v⟩ := hd
    by_cases h : a = k
    · simp [updList, h]
    · by_cases hm : k ∈ t.map Prod.fst <;>
        simp [updList, h, ih, Ne.symm h, hm]

theorem map_fst_updCount (m : TCMap) (k : Bytes) :
    (updCount m k).map Prod.fst
      = if k ∈ m.map Prod.fst then m.map Prod.fst else m.map Prod.fst ++ [k] := by
  induction m with
  | nil => simp [updCount]
  | cons hd t ih =>
    obtain ⟨a, v⟩ := hd
    by_cases h : a = k
    · simp [updCount, h]
    · by_cases hm : k ∈ t.map Prod.fst <;>
        simp [updCount, h, ih, Ne.symm h, hm]

theorem nodup_map_fst_updList {m : SPMap} (k : Bytes) (p : Posting)
    (h : (m.map Prod.fst).Nodup) : ((updList m k p).map Prod.fst).Nodup := by
  rw [map_fst_updList]
  split
  · exact h
  · next hk => simp [List.nodup_append, h, hk]

theorem nodup_map_fst_updCount {m : TCMap} (k : Bytes)
    (h : (m.map Prod.fst).Nodup) : ((updCount m k).map Prod.fst).Nodup := by
  rw [map_fst_updCount]
  split
  · exact h
  · next hk => simp [List.nodup_append, h, hk]

theorem nodup_map_fst_applyOccs (occs : List (Bytes × Posting)) :
    ∀ (m : SPMap), (m.map Prod.fst).Nodup → ((applyOccs m occs).map Prod.fst).Nodup := by
  induction occs with
  | nil => intro m h; simpa [applyOccs] using h
  | cons kp rest ih =>
    intro m h
    have hstep : applyOccs m (kp :: rest) = applyOccs (updList m kp.1 kp.2) rest := by
      simp [applyOccs]
    rw [hstep]
    exact ih _ (nodup_map_fst_updList _ _ h)

theorem nodup_map_fst_applyCountKeys (ks : List Bytes) :
    ∀ (m : TCMap), (m.map Prod.fst).Nodup → ((applyCountKeys m ks).map Prod.fst).Nodup := by
  induction ks with
  | nil => intro m h; simpa [applyCountKeys] using h
  | cons k0 rest ih =>
    intro m h
    have hstep : applyCountKeys m (k0 :: rest) = applyCountKeys (updCount m k0) rest := by
      simp [applyCountKeys]
    rw [hstep]
    exact ih _ (nodup_map_fst_updCount _ h)

theorem mem_map_fst_applyOccs (occs : List (Bytes × Posting)) :
    ∀ (m : SPMap) (k : Bytes), k ∈ (applyOccs m occs).map Prod.fst →
      k ∈ m.map Prod.fst ∨ k ∈ occs.map Prod.fst := by
  induction occs with
  | nil => intro m k h; exact Or.inl h
  | cons kp rest ih =>
    intro m k h
    have hstep : applyOccs m (kp :: rest) = applyOccs (updList m kp.1 kp.2) rest := by
      simp [applyOccs]
    rw [hstep] at h
    rcases ih _ _ h with h2 | h2
    · rw [map_fst_updList] at h2
      split at h2
      · exact Or.inl h2
      · rcases List.mem_append.mp h2 with h3 | h3
        · exact Or.inl h3
        · simp at h3
          subst h3
          exact Or.inr (by simp)
    · exact Or.inr (by simp [h2])

theorem mem_map_fst_applyCountKeys (ks : List Bytes) :
    ∀ (m : TCMap) (k : Bytes), k ∈ (applyCountKeys m ks).map Prod.fst →
      k ∈ m.map Prod.fst ∨ k ∈ ks := by
  induction ks with
  | nil => intro m k h; exact Or.inl h
  | cons k0 rest ih =>
    intro m k h
    have hstep : applyCountKeys m (k0 :: rest) = applyCountKeys (updCount m k0) rest := by
      simp [applyCountKeys]
    rw [hstep] at h
    rcases ih _ _ h with h2 | h2
    · rw [map_fst_updCount] at h2
      split at h2
      · exact Or.inl h2
      · rcases List.mem_append.mp h2 with h3 | h3
        · exact Or.inl h3
        · simp at h3
          subst h3
          exact Or.inr (by simp)
    · exact Or.inr (by simp [h2])

/-- In an association list with distinct keys, a member pair's value is
the lookup result. -/
theorem lookupPL_of_mem {m : SPMap} {k : Bytes} {v : List Posting}
    (hnd : (m.map Prod.fst).Nodup) (hmem : (k, v) ∈ m) : lookupPL m k = v := by
  induction m with
  | nil => simp at hmem
  | cons hd t ih =>
    obtain ⟨a, w⟩ := hd
    simp only [List.map_cons, List.nodup_cons] at hnd
    rcases List.mem_cons.mp hmem with h | h
    · obtain ⟨h1, h2⟩ := Prod.mk.injEq .. ▸ h
      injection h with h1 h2
      simp [lookupPL, h1.symm, h2]
    · have hak : a ≠ k := by
        intro hh
        exact hnd.1 (hh ▸ (List.mem_map.mpr ⟨(k, v), h, rfl⟩))
      simp [lookupPL, hak, ih hnd.2 h]

theorem lookupTC_of_mem {m : TCMap} {k : Bytes} {v : Int}
    (hnd : (m.map Prod.fst).Nodup) (hmem : (k, v) ∈ m) : lookupTC m k = v := by
  induction m with
  | nil => simp at hmem
  | cons hd t ih =>
    obtain ⟨a, w⟩ := hd
    simp only [List.map_cons, List.nodup_cons] at hnd
    rcases List.mem_cons.mp hmem with h | h
    · injection h with h1 h2
      simp [lookupTC, h1.symm, h2]
    · have hak : a ≠ k := by
        intro hh
        exact hnd.1 (hh ▸ (List.mem_map.mpr ⟨(k, v), h, rfl⟩))
      simp [lookupTC, hak, ih hnd.2 h]

/-!
### Loop-shape lemmas: the C++ nested loops enumerate `prefixPairs`
-/

theorem foldl_flatMap {α β γ : Type} (f : γ → β → γ) (g : α → List β) (l : List α) :
    ∀ init : γ, (l.flatMap g).foldl f init = l.foldl (fun acc a => (g a).foldl f acc) init := by
  induction l with
  | nil => intro init; rfl
  | cons a t ih =>
    intro init
    simp only [List.flatMap_cons, List.foldl_append, List.foldl_cons, ih]

theorem AddPrefixesToBatch_eq_applyOccs (L d : Nat) (s : List Nat) (loc : Nat) (m0 : SPMap) :
    AddPrefixesToBatch L d s loc m0 = applyOccs m0 (prefixOccurrences L d s loc) := by
  unfold AddPrefixesToBatch applyOccs prefixOccurrences prefixPairs
  rw [List.foldl_map, foldl_flatMap]
  congr 1
  funext m start
  rw [List.foldl_map]

theorem AddTargetCountsToBatch_eq_applyCountKeys (L : Nat) (s : List Nat) (m0 : TCMap) :
    AddTargetCountsToBatch L s m0 = applyCountKeys m0 (countKeys L s) := by
  unfold AddTargetCountsToBatch applyCountKeys countKeys prefixPairs
  rw [List.foldl_map, foldl_flatMap]
  congr 1
  funext m start
  rw [List.foldl_map]

theorem mem_prefixPairs (L n : Nat) (start len : Nat) :
    (start, len) ∈ prefixPairs L n
      ↔ start < n ∧ 1 ≤ len ∧ len ≤ min L (n - start) := by
  simp only [prefixPairs, List.mem_flatMap, List.mem_map, List.mem_range, Prod.mk.injEq]
  constructor
  · rintro ⟨a, ha, i, hi, rfl, rfl⟩
    omega
  · rintro ⟨h1, h2, h3⟩
    exact ⟨start, h1, len - 1, by omega, rfl, by omega⟩

theorem nodup_prefixPairs (L n : Nat) : (prefixPairs L n).Nodup := by
  unfold prefixPairs
  rw [List.nodup_flatMap]
  refine ⟨fun start _ => ?_, ?_⟩
  · exact (List.nodup_range _).map (fun i j hij => by simpa using hij)
  · refine (List.pairwise_lt_range n).imp ?_
    intro a b hab
    intro x hxa hxb
    rcases List.mem_map.mp hxa with ⟨i, _, rfl⟩
    rcases List.mem_map.mp hxb with ⟨j, _, hj⟩
    have : a = b := by
      have := (Prod.mk.injEq ..).mp hj
      omega
    omega

/-!
### PutBatch lemmas
-/

theorem applyOccs_append (m : SPMap) (o1 o2 : List (Bytes × Posting)) :
    applyOccs m (o1 ++ o2) = applyOccs (applyOccs m o1) o2 := by
  simp [applyOccs, List.foldl_append]

theorem applyCountKeys_append (m : TCMap) (k1 k2 : List Bytes) :
    applyCountKeys m (k1 ++ k2) = applyCountKeys (applyCountKeys m k1) k2 := by
  simp [applyCountKeys, List.foldl_append]

theorem putBatchFold_char (L : Nat) (entries : List UpdateEntry) :
    ∀ (stor : StorageModel) (sp : SPMap) (tc : TCMap),
      putBatchFold L entries stor sp tc
        = ({ records := stor.records
              ++ entries.map (fun e => (e.domain, e.source, e.target, e.alignment))
             flushedCount := stor.flushedCount },
           applyOccs sp (batchSourceOccs L entries stor.records.length),
           applyCountKeys tc (batchTargetKeys L entries)) := by
  induction entries with
  | nil =>
    intro stor sp tc
    simp [putBatchFold, batchSourceOccs, batchTargetKeys, applyOccs, applyCountKeys]
  | cons e rest ih =>
    intro stor sp tc
    simp only [putBatchFold, storageAppend]
    rw [ih, AddPrefixesToBatch_eq_applyOccs, AddTargetCountsToBatch_eq_applyCountKeys]
    simp only [batchSourceOccs, batchTargetKeys, List.length_append, List.length_cons,
      List.length_nil, List.map_cons, applyOccs_append, applyCountKeys_append]
    simp [List.append_assoc]

theorem head_mem_batchSourceOccs (L : Nat) (entries : List UpdateEntry) :
    ∀ (base : Nat) (kp : Bytes × Posting), kp ∈ batchSourceOccs L entries base →
      kp.1.headD 255 = kSourcePrefixKeyType := by
  induction entries with
  | nil => intro base kp h; simp [batchSourceOccs] at h
  | cons e rest ih =>
    intro base kp h
    rcases List.mem_append.mp h with h2 | h2
    · rcases List.mem_map.mp h2 with ⟨sl, _, rfl⟩
      rfl
    · exact ih _ _ h2

theorem head_mem_batchTargetKeys (L : Nat) (entries : List UpdateEntry) :
    ∀ k ∈ batchTargetKeys L entries, k.headD 255 = kTargetCountKeyType := by
  induction entries with
  | nil => intro k h; simp [batchTargetKeys] at h
  | cons e rest ih =>
    intro k h
    rcases List.mem_append.mp h with h2 | h2
    · rcases List.mem_map.mp h2 with ⟨sl, _, rfl⟩
      rfl
    · exact ih _ h2

theorem mergeOpsOf_append (w1 w2 : List WriteOp) :
    mergeOpsOf (w1 ++ w2) = mergeOpsOf w1 ++ mergeOpsOf w2 := by
  simp [mergeOpsOf, List.filterMap_append]

theorem mergeOpsOf_map_merge {α : Type} (f g : α → Bytes) (l : List α) :
    mergeOpsOf (l.map (fun x => WriteOp.merge (f x) (g x))) = l.map (fun x => (f x, g x)) := by
  induction l with
  | nil => rfl
  | cons x t ih =>
    simp only [mergeOpsOf, List.map_cons] at ih ⊢
    rw [List.filterMap_cons]
    exact congrArg (List.cons (f x, g x)) ih

theorem mergeOpsOf_map_put {α : Type} (f g : α → Bytes) (l : List α) :
    mergeOpsOf (l.map (fun x => WriteOp.put (f x) (g x))) = [] := by
  induction l with
  | nil => rfl
  | cons x t ih =>
    simp only [mergeOpsOf, List.map_cons] at ih ⊢
    rw [List.filterMap_cons]
    exact ih

theorem mergeOpsOf_PutBatch (L : Nat) (bulk : Bool) (st : SAState) (batch : UpdateBatch) :
    mergeOpsOf (PutBatch L bulk st batch).writeBatch
      = (putBatchFold L batch.data st.storage [] []).2.1.map
          (fun kv => (kv.1, SerializePostingList kv.2))
        ++ (putBatchFold L batch.data st.storage [] []).2.2.map
          (fun kv => (kv.1, SerializeCount kv.2)) := by
  unfold PutBatch
  simp only [mergeOpsOf_append, mergeOpsOf_map_merge, mergeOpsOf_map_put]
  have hstreams : mergeOpsOf [WriteOp.put kStreamsKey (SerializeStreams st.streams)] = [] := rfl
  have hman : mergeOpsOf (if bulk then ([] : List WriteOp)
      else [WriteOp.put kStorageManifestKey
        (serializeManifest (if bulk then (putBatchFold L batch.data st.storage [] []).1
          else storageFlush (putBatchFold L batch.data st.storage [] []).1))]) = [] := by
    cases bulk <;> rfl
  rw [hstreams, hman]
  simp

theorem firstPutValue_append_no_match (l rest : List WriteOp) (k : Bytes)
    (h : ∀ v, WriteOp.put k v ∉ l) :
    firstPutValue (l ++ rest) k = firstPutValue rest k := by
  induction l with
  | nil => rfl
  | cons op t ih =>
    cases op with
    | put k2 v =>
      have hk : ¬(k2 = k) := by
        intro hh
        subst hh
        exact h v (by simp)
      simp only [List.cons_append, firstPutValue, if_neg hk]
      exact ih (fun v2 hv => h v2 (by simp [hv]))
    | merge k2 v =>
      simp only [List.cons_append, firstPutValue]
      exact ih (fun v2 hv => h v2 (by simp [hv]))

/-!
### Read-only trace lemmas
-/

theorem foldl_applyKVOp_reads (ops : List KVOp) :
    ∀ st : FullState, ops.all isReadOp = true → ops.foldl applyKVOp st = st := by
  induction ops with
  | nil => intro st _; rfl
  | cons op t ih =>
    intro st h
    simp only [List.all_cons, Bool.and_eq_true] at h
    have hop : applyKVOp st op = st := by
      cases op with
      | get k => rfl
      | scan k => rfl
      | put k v => simp [isReadOp] at h
      | merge k v => simp [isReadOp] at h
      | del k => simp [isReadOp] at h
      | storageAppendOp d s t2 => simp [isReadOp] at h
      | storageFlushOp => simp [isReadOp] at h
    rw [List.foldl_cons, hop]
    exact ih st h.2

theorem countOccurrencesTrace_reads (L : Nat) (db : List (Bytes × Bytes)) (isSource : Bool)
    (phrase : List Nat) :
    (CountOccurrencesTrace L db isSource phrase).all isReadOp = true := by
  unfold CountOccurrencesTrace
  split
  · rfl
  · split
    · rw [List.all_cons]
      refine Bool.and_eq_true_iff.mpr ⟨rfl, ?_⟩
      rw [List.all_eq_true]
      intro op hop
      rcases List.mem_map.mp hop with ⟨kv, _, rfl⟩
      rfl
    · rfl

theorem iterNextTrace_reads (L : Nat) (rs : List RawRec) :
    (IterNextTrace L rs).all isReadOp = true := by
  induction rs with
  | nil => rfl
  | cons r rest ih =>
    unfold IterNextTrace
    split
    · rfl
    · split
      · rfl
      · split
        · rw [List.all_cons]
          exact Bool.and_eq_true_iff.mpr ⟨rfl, ih⟩
        · rfl

/-!
### Claim theorems
-/

/-- C2: the merge operator's behavior is fixed by the key's leading type
tag — for a `SourcePrefixKey` it concatenates the existing value (empty
when absent) with the incoming one; for a `TargetCountKey` it serializes
the sum of the decoded counts, an absent operand counting as zero; for
every other tag it declines. -/
theorem merge_operator_dispatch (key : Bytes) (e : Option Bytes) (v : Bytes) :
    (key.headD 255 = kSourcePrefixKeyType →
      MergePositionOperator.Merge key e v = some (e.getD [] ++ v))
    ∧ (key.headD 255 = kTargetCountKeyType →
      MergePositionOperator.Merge key e v
        = some (SerializeCount ((e.map DeserializeCount).getD 0 + DeserializeCount v)))
    ∧ (key.headD 255 ≠ kSourcePrefixKeyType → key.headD 255 ≠ kTargetCountKeyType →
      MergePositionOperator.Merge key e v = none) := by
  refine ⟨?_, ?_, ?_⟩
  · intro h
    unfold MergePositionOperator.Merge
    rw [if_pos h]
    cases e with
    | none => rfl
    | some x => rfl
  · intro h
    have hne : key.headD 255 ≠ kSourcePrefixKeyType := by
      rw [h]
      decide
    unfold MergePositionOperator.Merge
    rw [if_neg hne, if_pos h]
    cases e with
    | none => simp [MergePositionOperator.MergeCounts]
    | some x => simp [MergePositionOperator.MergeCounts, Int.add_comm]
  · intro h1 h2
    unfold MergePositionOperator.Merge
    rw [if_neg h1, if_neg h2]

/-- Witness for C2 at a concrete source-prefix key. -/
theorem merge_operator_dispatch_witness :
    (([2, 9] : Bytes).headD 255 = kSourcePrefixKeyType)
    ∧ MergePositionOperator.Merge [2, 9] (some [7]) [8]
        = some ((some ([7] : Bytes)).getD [] ++ [8]) :=
  ⟨by decide, (merge_operator_dispatch [2, 9] (some [7]) [8]).1 (by decide)⟩

theorem toNat_max_one (x : Int) : 1 ≤ (max x 1).toNat ∧ (max x 1).toNat ≠ 0 := by
  have h := le_max_right x 1
  omega

/-- C4: for phrases no longer than the prefix length, `CountOccurrences`
returns at least 1 and never 0, on both sides, whatever the index holds. -/
theorem countOccurrences_floor (L : Nat) (db : List (Bytes × Bytes)) (isSource : Bool)
    (phrase : List Nat) (h : phrase.length ≤ L) :
    1 ≤ CountOccurrences L db isSource phrase ∧ CountOccurrences L db isSource phrase ≠ 0 := by
  unfold CountOccurrences
  rw [if_neg (by omega)]
  exact toNat_max_one _

/-- Witness for C4: a one-word phrase against an empty index. -/
theorem countOccurrences_floor_witness :
    ([5] : List Nat).length ≤ 3
    ∧ (1 ≤ CountOccurrences 3 [] true [5] ∧ CountOccurrences 3 [] true [5] ≠ 0) :=
  ⟨by decide, countOccurrences_floor 3 [] true [5] (by decide)⟩

/-- C5: for phrases strictly longer than the prefix length,
`CountOccurrences` returns exactly 1 on both sides, whatever the index
holds. -/
theorem countOccurrences_long_phrase (L : Nat) (db : List (Bytes × Bytes)) (isSource : Bool)
    (phrase : List Nat) (h : L < phrase.length) :
    CountOccurrences L db isSource phrase = 1 := by
  unfold CountOccurrences
  rw [if_pos (by omega)]

/-- Witness for C5: a two-word phrase with prefix length 1. -/
theorem countOccurrences_long_phrase_witness :
    1 < ([3, 4] : List Nat).length ∧ CountOccurrences 1 [] false [3, 4] = 1 :=
  ⟨by decide, countOccurrences_long_phrase 1 [] false [3, 4] (by decide)⟩

/-- C8 counterexample: constructing with a model path that is not a
directory yields `invalid_argument` (SuffixArray.cpp line 79), not the
index-error kind the claim asserts. -/
theorem suffixArrayInit_missing_dir_counterexample :
    SuffixArrayInit { modelPathIsDirectory := false, dbOpenOk := true, storageOpenOk := true }
      = Except.error InitError.invalidArgument
    ∧ SuffixArrayInit { modelPathIsDirectory := false, dbOpenOk := true, storageOpenOk := true }
      ≠ Except.error InitError.indexError := by
  refine ⟨rfl, ?_⟩
  intro h
  simp [SuffixArrayInit] at h

/-- C8 (amended): a missing or non-directory model path fails with an
invalid-argument error; the index-open error kind is raised when the
key-value store under the model directory fails to open. -/
theorem suffixArrayInit_error_kinds (env : InitEnv) :
    (env.modelPathIsDirectory = false →
      SuffixArrayInit env = Except.error InitError.invalidArgument)
    ∧ (env.modelPathIsDirectory = true → env.dbOpenOk = false →
      SuffixArrayInit env = Except.error InitError.indexError) := by
  constructor
  · intro h
    simp [SuffixArrayInit, h]
  · intro h1 h2
    simp [SuffixArrayInit, h1, h2]

/-- Witness for the amended C8 at a concrete environment. -/
theorem suffixArrayInit_error_kinds_witness :
    (InitEnv.mk false true true).modelPathIsDirectory = false
    ∧ SuffixArrayInit (InitEnv.mk false true true) = Except.error InitError.invalidArgument :=
  ⟨rfl, (suffixArrayInit_error_kinds (InitEnv.mk false true true)).1 rfl⟩

/-- C1 counterexample: with pre-batch streams [(0,1)] and a batch whose
resulting streams are [(0,2)], the value written under the streams key is
the serialization of the pre-batch state, not of the batch's resulting
state that becomes the in-memory state. -/
theorem putBatch_streams_counterexample :
    firstPutValue
        (PutBatch 2 true
          { streams := [(0, 1)], storage := { records := [], flushedCount := 0 } }
          { data := [], deletions := [], streams := [(0, 2)] }).writeBatch
        kStreamsKey
      ≠ some (SerializeStreams
          (PutBatch 2 true
            { streams := [(0, 1)], storage := { records := [], flushedCount := 0 } }
            { data := [], deletions := [], streams := [(0, 2)] }).newState.streams) := by
  decide

/-- C1 (amended): the value written under the streams key inside the
atomic write batch is the serialization of the pre-batch in-memory Stream
State (SuffixArray.cpp line 195); only after the commit does the in-memory
Stream State become the batch's resulting state (line 210), so the
persisted stream state lags the in-memory one by one batch. -/
theorem putBatch_streams_written (L : Nat) (bulk : Bool) (st : SAState) (batch : UpdateBatch) :
    firstPutValue (PutBatch L bulk st batch).writeBatch kStreamsKey
      = some (SerializeStreams st.streams)
    ∧ (PutBatch L bulk st batch).newState.streams = batch.streams := by
  constructor
  · have h1 : ∀ v, WriteOp.put kStreamsKey v
        ∉ (putBatchFold L batch.data st.storage [] []).2.1.map
            (fun kv => WriteOp.merge kv.1 (SerializePostingList kv.2)) := by
      intro v hv
      rcases List.mem_map.mp hv with ⟨kv, _, heq⟩
      exact WriteOp.noConfusion heq
    have h2 : ∀ v, WriteOp.put kStreamsKey v
        ∉ (putBatchFold L batch.data st.storage [] []).2.2.map
            (fun kv => WriteOp.merge kv.1 (SerializeCount kv.2)) := by
      intro v hv
      rcases List.mem_map.mp hv with ⟨kv, _, heq⟩
      exact WriteOp.noConfusion heq
    have h3 : ∀ v, WriteOp.put kStreamsKey v
        ∉ batch.deletions.map (fun d => WriteOp.put (MakeDomainDeletionKey d) []) := by
      intro v hv
      rcases List.mem_map.mp hv with ⟨d, _, heq⟩
      injection heq with hk hv2
      simp [MakeDomainDeletionKey, kStreamsKey, MakeEmptyKey, kDomainDeletionKeyType,
        kStreamsKeyType] at hk
    simp only [PutBatch, List.append_assoc]
    rw [firstPutValue_append_no_match _ _ _ h1, firstPutValue_append_no_match _ _ _ h2,
      firstPutValue_append_no_match _ _ _ h3]
    simp [firstPutValue]
  · rfl

/-- C10: `CountOccurrences` and index iteration only read — their
operation traces contain no put, merge or delete against the key-value
store or the corpus storage, and replaying them leaves any persistent
state unchanged. -/
theorem query_paths_read_only (L : Nat) (db : List (Bytes × Bytes)) (isSource : Bool)
    (phrase : List Nat) (rs : List RawRec) (st : FullState) :
    (CountOccurrencesTrace L db isSource phrase).all isReadOp = true
    ∧ (CountOccurrencesTrace L db isSource phrase).foldl applyKVOp st = st
    ∧ (IterNextTrace L rs).all isReadOp = true
    ∧ (IterNextTrace L rs).foldl applyKVOp st = st :=
  ⟨countOccurrencesTrace_reads L db isSource phrase,
   foldl_applyKVOp_reads _ st (countOccurrencesTrace_reads L db isSource phrase),
   iterNextTrace_reads L rs,
   foldl_applyKVOp_reads _ st (iterNextTrace_reads L rs)⟩

/-- C3: the merge operator is associative and commutative up to consumed
semantics — posting-list merges agree byte-for-byte across groupings and
denote the same multiset of postings in every operand order, and count
merges associate, commute and yield the sum of the counts. -/
theorem merge_operator_assoc_comm (l1 l2 l3 la lb lc : List Posting) (a b c : Int)
    (hperm : [l1, l2, l3].Perm [la, lb, lc])
    (hlow : -9223372036854775808 ≤ a + b + c) (hhigh : a + b + c < 9223372036854775808) :
    MergePositionOperator.MergePositionLists
        (some (MergePositionOperator.MergePositionLists (some (SerializePostingList l1))
          (SerializePostingList l2)))
        (SerializePostingList l3)
      = MergePositionOperator.MergePositionLists (some (SerializePostingList l1))
          (MergePositionOperator.MergePositionLists (some (SerializePostingList l2))
            (SerializePostingList l3))
    ∧ PostingsDenoted (MergePositionOperator.MergePositionLists
        (some (MergePositionOperator.MergePositionLists (some (SerializePostingList l1))
          (SerializePostingList l2)))
        (SerializePostingList l3))
      = ((la.map truncPosting : List Posting) : Multiset Posting)
        + ((lb.map truncPosting : List Posting) : Multiset Posting)
        + ((lc.map truncPosting : List Posting) : Multiset Posting)
    ∧ MergePositionOperator.MergeCounts
        (some (MergePositionOperator.MergeCounts (some (SerializeCount a)) (SerializeCount b)))
        (SerializeCount c)
      = MergePositionOperator.MergeCounts (some (SerializeCount a))
          (MergePositionOperator.MergeCounts (some (SerializeCount b)) (SerializeCount c))
    ∧ MergePositionOperator.MergeCounts (some (SerializeCount a)) (SerializeCount b)
      = MergePositionOperator.MergeCounts (some (SerializeCount b)) (SerializeCount a)
    ∧ DeserializeCount (MergePositionOperator.MergeCounts
        (some (MergePositionOperator.MergeCounts (some (SerializeCount a)) (SerializeCount b)))
        (SerializeCount c)) = a + b + c := by
  have hbytes : MergePositionOperator.MergePositionLists
      (some (MergePositionOperator.MergePositionLists (some (SerializePostingList l1))
        (SerializePostingList l2)))
      (SerializePostingList l3)
      = SerializePostingList l1 ++ (SerializePostingList l2 ++ SerializePostingList l3) := by
    simp [MergePositionOperator.MergePositionLists]
  refine ⟨?_, ?_, ?_, ?_, ?_⟩
  · rw [hbytes]
    rfl
  · rw [hbytes]
    have hdec : DeserializePostingList
        (SerializePostingList l1 ++ (SerializePostingList l2 ++ SerializePostingList l3))
        = l1.map truncPosting ++ (l2.map truncPosting ++ l3.map truncPosting) := by
      rw [DeserializePostingList_serialize_append, DeserializePostingList_serialize_append,
        DeserializePostingList_serialize]
    unfold PostingsDenoted
    rw [hdec]
    have hsum := (hperm.map
      (fun l => ((l.map truncPosting : List Posting) : Multiset Posting))).sum_eq
    simp only [List.map_cons, List.map_nil, List.sum_cons, List.sum_nil, add_zero] at hsum
    push_cast [← Multiset.coe_add]
    rw [← add_assoc] at hsum
    rw [← add_assoc, hsum, ← add_assoc]
  · rw [MergeCounts_serialize, MergeCounts_serialize, MergeCounts_serialize,
      MergeCounts_serialize, Int.add_assoc]
  · rw [MergeCounts_serialize, MergeCounts_serialize, Int.add_comm]
  · rw [MergeCounts_serialize, MergeCounts_serialize]
    exact DeserializeCount_SerializeCount_of_range hlow hhigh

/-- Witness for C3 at concrete fragments and counts. -/
theorem merge_operator_assoc_comm_witness :
    ([[({ domain := 1, location := 2, start := 3 } : Posting)],
        [{ domain := 4, location := 5, start := 6 }], ([] : List Posting)].Perm
      [[{ domain := 4, location := 5, start := 6 }], [],
        [{ domain := 1, location := 2, start := 3 }]])
    ∧ DeserializeCount (MergePositionOperator.MergeCounts
        (some (MergePositionOperator.MergeCounts (some (SerializeCount 1)) (SerializeCount 2)))
        (SerializeCount 3)) = 1 + 2 + 3 :=
  ⟨by decide,
   (merge_operator_assoc_comm
      [{ domain := 1, location := 2, start := 3 }] [{ domain := 4, location := 5, start := 6 }]
      [] [{ domain := 4, location := 5, start := 6 }] [] [{ domain := 1, location := 2, start := 3 }]
      1 2 3 (by decide) (by decide) (by decide)).2.2.2.2⟩

/-- C6: for one processed entry, every (start, length) pair with
start < size and 1 ≤ length ≤ min(L, size - start) is enumerated exactly
once, contributing exactly one posting (domain, offset, start) under its
SourcePrefixKey and exactly one increment under its TargetCountKey. -/
theorem addPrefixes_addCounts_exactly_once (L d : Nat) (s : List Nat) (loc : Nat) (m0 : SPMap)
    (t : List Nat) (c0 : TCMap) (k : Bytes) (start len : Nat) :
    lookupPL (AddPrefixesToBatch L d s loc m0) k
      = lookupPL m0 k
        ++ ((prefixOccurrences L d s loc).filter (fun kp => kp.1 == k)).map Prod.snd
    ∧ lookupTC (AddTargetCountsToBatch L t c0) k
      = lookupTC c0 k + ((countKeys L t).count k : Int)
    ∧ (prefixPairs L s.length).Nodup
    ∧ ((start, len) ∈ prefixPairs L s.length
        ↔ start < s.length ∧ 1 ≤ len ∧ len ≤ min L (s.length - start))
    ∧ prefixOccurrences L d s loc
      = (prefixPairs L s.length).map
          (fun sl => (MakePrefixKey L d s sl.1 sl.2,
            { domain := d, location := loc, start := sl.1 }))
    ∧ countKeys L t = (prefixPairs L t.length).map (fun sl => MakeCountKey L t sl.1 sl.2) := by
  refine ⟨?_, ?_, nodup_prefixPairs L s.length, mem_prefixPairs L s.length start len, rfl, rfl⟩
  · rw [AddPrefixesToBatch_eq_applyOccs, lookupPL_applyOccs]
  · rw [AddTargetCountsToBatch_eq_applyCountKeys, lookupTC_applyCountKeys]

/-- C7: the index iterator ends cleanly when exhausted, reports decoded
source-prefix records (domain, words, postings, count = posting-list
length), reports decoded target-count records (words, count = decoded
integer, domain 0 = none), skips unrecognized tags without terminating,
and surfaces an index error when the underlying scan faults. -/
theorem indexIterator_next_spec (L : Nat) (r : RawRec) (rest : List RawRec) :
    IterNext L [] = Except.ok none
    ∧ (GetKeyTypeFromKey r.key L = kSourcePrefixKeyType → r.statusOkAfterNext = true →
        IterNext L (r :: rest) = Except.ok (some
          ({ is_source := true
             domain := GetDomainFromKey r.key L
             words := GetWordsFromKey r.key L
             positions := DeserializePostingList r.value
             count := ((DeserializePostingList r.value).length : Int) }, rest)))
    ∧ (GetKeyTypeFromKey r.key L = kTargetCountKeyType → r.statusOkAfterNext = true →
        IterNext L (r :: rest) = Except.ok (some
          ({ is_source := false
             domain := 0
             words := GetWordsFromKey r.key L
             positions := []
             count := DeserializeCount r.value }, rest)))
    ∧ (GetKeyTypeFromKey r.key L ≠ kSourcePrefixKeyType →
        GetKeyTypeFromKey r.key L ≠ kTargetCountKeyType → r.statusOkAfterNext = true →
        IterNext L (r :: rest) = IterNext L rest)
    ∧ (r.statusOkAfterNext = false →
        IterNext L (r :: rest) = Except.error "iterator status not ok") := by
  refine ⟨rfl, ?_, ?_, ?_, ?_⟩
  · intro h1 h2
    simp [IterNext, h1, h2]
  · intro h1 h2
    have hne : GetKeyTypeFromKey r.key L ≠ kSourcePrefixKeyType := by
      rw [h1]
      decide
    simp [IterNext, h1, h2, hne, kTargetCountKeyType, kSourcePrefixKeyType]
  · intro h1 h2 h3
    simp [IterNext, h1, h2, h3]
  · intro h
    by_cases h1 : GetKeyTypeFromKey r.key L = kSourcePrefixKeyType
    · simp [IterNext, h1, h]
    · by_cases h2 : GetKeyTypeFromKey r.key L = kTargetCountKeyType
      · simp [IterNext, h1, h2, h]
      · simp [IterNext, h1, h2, h]

/-- Witness for C7: one source-prefix record with one posting. -/
theorem indexIterator_next_spec_witness :
    GetKeyTypeFromKey ([2, 5, 0, 0, 0, 7, 0, 0, 0] : Bytes) 1 = kSourcePrefixKeyType
    ∧ IterNext 1 [{ key := [2, 5, 0, 0, 0, 7, 0, 0, 0]
                    value := SerializePostingList [{ domain := 7, location := 0, start := 0 }]
                    statusOkAfterNext := true }]
        = Except.ok (some
          ({ is_source := true
             domain := GetDomainFromKey [2, 5, 0, 0, 0, 7, 0, 0, 0] 1
             words := GetWordsFromKey [2, 5, 0, 0, 0, 7, 0, 0, 0] 1
             positions := DeserializePostingList
               (SerializePostingList [{ domain := 7, location := 0, start := 0 }])
             count := ((DeserializePostingList
               (SerializePostingList [{ domain := 7, location := 0, start := 0 }])).length : Int) },
            [])) :=
  ⟨by decide,
   (indexIterator_next_spec 1
      { key := [2, 5, 0, 0, 0, 7, 0, 0, 0]
        value := SerializePostingList [{ domain := 7, location := 0, start := 0 }]
        statusOkAfterNext := true } []).2.1 (by decide) rfl⟩

theorem map_fst_pair_map {β γ : Type} (f : β → γ) (l : List (Bytes × β)) :
    (l.map (fun kv => (kv.1, f kv.2))).map Prod.fst = l.map Prod.fst := by
  induction l with
  | nil => rfl
  | cons x t ih => simp [ih]

/-- C9: within one PutBatch all occurrences sharing a key are first
aggregated in memory, so the write batch holds at most one Merge per
distinct key, and each Merge's value serializes the aggregate of all the
batch's occurrences for that key. -/
theorem putBatch_merge_aggregation (L : Nat) (bulk : Bool) (st : SAState) (batch : UpdateBatch) :
    ((mergeOpsOf (PutBatch L bulk st batch).writeBatch).map Prod.fst).Nodup
    ∧ ∀ k v, (k, v) ∈ mergeOpsOf (PutBatch L bulk st batch).writeBatch →
        (k.headD 255 = kSourcePrefixKeyType
          ∧ v = SerializePostingList
              (((batchSourceOccs L batch.data st.storage.records.length).filter
                (fun kp => kp.1 == k)).map Prod.snd))
        ∨ (k.headD 255 = kTargetCountKeyType
          ∧ v = SerializeCount ((batchTargetKeys L batch.data).count k : Int)) := by
  have hchar := putBatchFold_char L batch.data st.storage [] []
  set sp := (putBatchFold L batch.data st.storage [] []).2.1 with hsp
  set tc := (putBatchFold L batch.data st.storage [] []).2.2 with htc
  have hsp2 : sp = applyOccs [] (batchSourceOccs L batch.data st.storage.records.length) := by
    rw [hsp, hchar]
  have htc2 : tc = applyCountKeys [] (batchTargetKeys L batch.data) := by
    rw [htc, hchar]
  have hspnd : (sp.map Prod.fst).Nodup := by
    rw [hsp2]
    exact nodup_map_fst_applyOccs _ [] (by simp)
  have htcnd : (tc.map Prod.fst).Nodup := by
    rw [htc2]
    exact nodup_map_fst_applyCountKeys _ [] (by simp)
  have hsphead : ∀ k ∈ sp.map Prod.fst, k.headD 255 = kSourcePrefixKeyType := by
    intro k hk
    rw [hsp2] at hk
    rcases mem_map_fst_applyOccs _ [] k hk with h | h
    · simp at h
    · rcases List.mem_map.mp h with ⟨kp, hkp, rfl⟩
      exact head_mem_batchSourceOccs L batch.data _ kp hkp
  have htchead : ∀ k ∈ tc.map Prod.fst, k.headD 255 = kTargetCountKeyType := by
    intro k hk
    rw [htc2] at hk
    rcases mem_map_fst_applyCountKeys _ [] k hk with h | h
    · simp at h
    · exact head_mem_batchTargetKeys L batch.data k h
  have hmerge := mergeOpsOf_PutBatch L bulk st batch
  rw [← hsp, ← htc] at hmerge
  constructor
  · rw [hmerge, List.map_append, map_fst_pair_map, map_fst_pair_map, List.nodup_append]
    refine ⟨hspnd, htcnd, ?_⟩
    intro x hx hx2
    have h1 := hsphead x hx
    have h2 := htchead x hx2
    rw [h1] at h2
    exact absurd h2 (by decide)
  · intro k v hkv
    rw [hmerge] at hkv
    rcases List.mem_append.mp hkv with h | h
    · left
      rcases List.mem_map.mp h with ⟨kv, hkvmem, heq⟩
      injection heq with he1 he2
      subst he1
      refine ⟨hsphead _ (List.mem_map.mpr ⟨kv, hkvmem, rfl⟩), ?_⟩
      have hlk : lookupPL sp kv.1 = kv.2 := lookupPL_of_mem hspnd hkvmem
      rw [← he2]
      congr 1
      rw [← hlk, hsp2, lookupPL_applyOccs]
      simp [lookupPL]
    · right
      rcases List.mem_map.mp h with ⟨kv, hkvmem, heq⟩
      injection heq with he1 he2
      subst he1
      refine ⟨htchead _ (List.mem_map.mpr ⟨kv, hkvmem, rfl⟩), ?_⟩
      have hlk : lookupTC tc kv.1 = kv.2 := lookupTC_of_mem htcnd hkvmem
      rw [← he2]
      congr 1
      rw [← hlk, htc2, lookupTC_applyCountKeys]
      simp [lookupTC]

/-- Witness for C9: a one-entry batch, checked at its source-prefix merge
operation. -/
theorem putBatch_merge_aggregation_witness :
    (([2, 5, 0, 0, 0, 7, 0, 0, 0] : Bytes),
        SerializePostingList [{ domain := 7, location := 0, start := 0 }])
      ∈ mergeOpsOf (PutBatch 1 true
          { streams := [], storage := { records := [], flushedCount := 0 } }
          { data := [{ domain := 7, source := [5], target := [9], alignment := [] }]
            deletions := [], streams := [] }).writeBatch
    ∧ ((([2, 5, 0, 0, 0, 7, 0, 0, 0] : Bytes).headD 255 = kSourcePrefixKeyType
        ∧ SerializePostingList [{ domain := 7, location := 0, start := 0 }]
          = SerializePostingList
              (((batchSourceOccs 1
                  [{ domain := 7, source := [5], target := [9], alignment := [] }] 0).filter
                (fun kp => kp.1 == [2, 5, 0, 0, 0, 7, 0, 0, 0])).map Prod.snd))
      ∨ (([2, 5, 0, 0, 0, 7, 0, 0, 0] : Bytes).headD 255 = kTargetCountKeyType
        ∧ SerializePostingList [{ domain := 7, location := 0, start := 0 }]
          = SerializeCount ((batchTargetKeys 1
              [{ domain := 7, source := [5], target := [9], alignment := [] }]).count
                [2, 5, 0, 0, 0, 7, 0, 0, 0] : Int))) :=
  ⟨by decide,
   (putBatch_merge_aggregation 1 true
      { streams := [], storage := { records := [], flushedCount := 0 } }
      { data := [{ domain := 7, source := [5], target := [9], alignment := [] }]
        deletions := [], streams := [] }).2
      [2, 5, 0, 0, 0, 7, 0, 0, 0]
      (SerializePostingList [{ domain := 7, location := 0, start := 0 }]) (by decide)⟩

end MMT
